import Mathlib

/-!
Shallow embedding of the whispo speech-capture subsystem, covering the
fusion transcription engine (`fusion-transcription.ts`), the app-rule
resolution module (`app-detection.ts`), the voice activation manager
(`voice-activation.ts`) and the streaming dictation manager
(`streaming-dictation.ts`), together with theorems about the behaviour
those modules implement.

Numbers are modelled exactly: JavaScript numbers used for confidences
and weights become `ℚ`, millisecond timestamps and durations become `ℤ`.
Wall-clock sampling (`Date.now()`) is passed in explicitly where a
function reads it.  Asynchronous provider calls are modelled by their
settled outcomes: the engine waits for all dispatched calls before
touching the results, so the list of settled `TranscriptionResult`s is
the only observable input of the combination stage.
-/

/-- The STT provider identifiers of `shared/index.ts` (`STT_PROVIDERS`):
`"openai"` and `"groq"`. -/
inductive STT_PROVIDER_ID where
  | openai
  | groq
deriving DecidableEq, Repr

/-- The result record one provider produces per fusion call
(`TranscriptionResult` in `shared/types.ts`). -/
structure TranscriptionResult where
  provider : STT_PROVIDER_ID
  transcript : String
  confidence : ℚ
  processingTime : ℤ
  success : Bool
  error : Option String
deriving DecidableEq, Repr

/-- Model of JavaScript `toLowerCase()`: lower-case every character. -/
def jsToLower (s : String) : String :=
  String.mk (s.data.map Char.toLower)

/-- Model of JavaScript `trim()`: remove leading and trailing
whitespace. -/
def jsTrim (s : String) : String :=
  String.mk
    (((s.data.dropWhile Char.isWhitespace).reverse.dropWhile
        Char.isWhitespace).reverse)

/-- Worker for `jsSplitWs`. `inWs` records whether the previous
character belonged to the whitespace run currently being skipped and
`cur` holds the characters of the token being read, in reverse. -/
def jsSplitWsAux : List Char → Bool → List Char → List String
  | [], _, cur => [String.mk cur.reverse]
  | c :: cs, inWs, cur =>
    if c.isWhitespace then
      if inWs then jsSplitWsAux cs true cur
      else String.mk cur.reverse :: jsSplitWsAux cs true []
    else jsSplitWsAux cs false (c :: cur)

/-- Model of the JavaScript `s.split(/\s+/)`: splits on maximal
whitespace runs, so interior runs collapse and a leading or trailing run
contributes an empty-string entry; the empty string splits to `[""]`. -/
def jsSplitWs (s : String) : List String :=
  jsSplitWsAux s.toList false []

/-- Tokenization used by `combineMajorityVote`
(`fusion-transcription.ts` line 255):
`transcript.toLowerCase().split(/\s+/).filter(word => word.length > 0)`. -/
def tokenizeWords (s : String) : List String :=
  (jsSplitWs (jsToLower s)).filter (fun w => 0 < w.length)

/-- Heuristic confidence estimate of `fusion-transcription.ts`
(`estimateConfidence`): provider base value, transcript-length and
latency adjustments, a garbled-text penalty, then a clamp to
`[0.1, 0.99]`. -/
def estimateConfidence (transcript : String) (provider : STT_PROVIDER_ID)
    (processingTime : ℤ) : ℚ :=
  let baseConfidence : ℚ :=
    match provider with
    | .openai => 9/10
    | .groq => 85/100
  let c1 := baseConfidence
  let c2 := if 50 < transcript.length then c1 + 5/100 else c1
  let c3 := if transcript.length < 5 then c2 - 2/10 else c2
  let c4 :=
    if processingTime < 1000 then c3 - 1/10
    else if 10000 < processingTime then c3 - 5/100
    else c3
  let wordCount := (jsSplitWs transcript).length
  let avgWordLength : ℚ := (transcript.length : ℚ) / (wordCount : ℚ)
  let c5 := if 15 < avgWordLength then c4 - 15/100 else c4
  max (1/10) (min (99/100) c5)

/-- Settled outcome of one provider call, abstracting the network
round-trip of `processProvider`: either the transcript arrived within
the timeout, or the call failed (a thrown error, a non-2xx response, a
missing API key, or the `"Timeout"` rejection of the race). -/
inductive ProviderOutcome where
  | ok (transcript : String) (processingTime : ℤ)
  | failed (errorMessage : String) (processingTime : ℤ)
deriving DecidableEq, Repr

/-- Per-provider result construction of `processProvider`
(`fusion-transcription.ts` lines 105-144): a settled success becomes a
`success := true` record with an estimated confidence, any exception is
absorbed into a `success := false` record with confidence `0` and the
error message. -/
def processProvider (outcome : STT_PROVIDER_ID → ProviderOutcome)
    (provider : STT_PROVIDER_ID) : TranscriptionResult :=
  match outcome provider with
  | .ok transcript processingTime =>
      { provider := provider
        transcript := transcript
        confidence := estimateConfidence transcript provider processingTime
        processingTime := processingTime
        success := true
        error := none }
  | .failed msg processingTime =>
      { provider := provider
        transcript := ""
        confidence := 0
        processingTime := processingTime
        success := false
        error := some msg }

/-- The five fusion strategies of `shared/types.ts` (`FusionStrategy`). -/
inductive FusionStrategy where
  | bestConfidence
  | primaryFallback
  | majorityVote
  | weightedAverage
  | consensus
deriving DecidableEq, Repr

/-- The fusion configuration of `shared/types.ts` (`FusionConfig`).
`providerWeights` is the partial record of weights; an absent entry is
`none`. -/
structure FusionConfig where
  enabled : Bool
  strategy : FusionStrategy
  providers : List STT_PROVIDER_ID
  primaryProvider : Option STT_PROVIDER_ID
  timeoutMs : ℤ
  minProvidersRequired : Nat
  confidenceThreshold : ℚ
  enableParallel : Bool
  providerWeights : STT_PROVIDER_ID → Option ℚ

/-- The fused output record of `shared/types.ts` (`FusionResult`).
`processingTime` (a wall-clock difference in the source) is abstracted
to `0`. -/
structure FusionResult where
  finalTranscript : String
  confidence : ℚ
  strategy : FusionStrategy
  results : List TranscriptionResult
  processingTime : ℤ
  providersUsed : List STT_PROVIDER_ID
deriving DecidableEq, Repr

/-- Insertion-ordered vote table, modelling the JavaScript `Map` of
`combineMajorityVote`: `set(word, get(word)+1)` keeps the position of an
existing key and appends a new key at the end. -/
def bumpCount : List (String × Nat) → String → List (String × Nat)
  | [], w => [(w, 1)]
  | (k, n) :: rest, w =>
    if k = w then (k, n + 1) :: rest else (k, n) :: bumpCount rest w

/-- Builds the vote table for a list of words, in insertion order. -/
def countEntries (words : List String) : List (String × Nat) :=
  words.foldl bumpCount []

/-- Model of the JavaScript
`entries.reduce((best, current) => current[1] > best[1] ? current : best)`
over a non-empty entry list: keeps the earliest entry with the largest
count. -/
def jsMaxEntry (e : String × Nat) (rest : List (String × Nat)) : String × Nat :=
  rest.foldl (fun best current => if best.2 < current.2 then current else best) e

/-- The words the providers offer at position `i`: one entry per token
list that is long enough (`if (i < wordList.length)` in the loop of
`combineMajorityVote`). -/
def wordsAt (wordLists : List (List String)) (i : Nat) : List String :=
  wordLists.filterMap (fun wl => wl.get? i)

/-- One iteration of the position loop of `combineMajorityVote` (lines
262-277): build the vote table for position `i` and, when it is
non-empty, emit the entry the JavaScript reduce selects. -/
def majorityWinnerAt (wordLists : List (List String)) (i : Nat) : Option String :=
  match countEntries (wordsAt wordLists i) with
  | [] => none
  | e :: rest => some (jsMaxEntry e rest).1

/-- Word-level majority voting of `fusion-transcription.ts`
(`combineMajorityVote`, lines 249-280): a single result is returned
verbatim; otherwise every transcript is tokenized into lower-cased
words and, for each position below the longest token list, the word
with the most votes at that position is emitted. -/
def combineMajorityVote (results : List TranscriptionResult) : String :=
  match results with
  | [] => ""
  | [r] => r.transcript
  | _ =>
    let wordLists := results.map (fun r => tokenizeWords r.transcript)
    let maxLength := wordLists.foldl (fun m l => max m l.length) 0
    String.intercalate " "
      ((List.range maxLength).filterMap (majorityWinnerAt wordLists))

/-- JavaScript truthiness of `providerWeights[result.provider] || 1.0`:
an absent weight and a weight of exactly `0` both fall back to `1`. -/
def effectiveWeight (w : Option ℚ) : ℚ :=
  match w with
  | some v => if v = 0 then 1 else v
  | none => 1

/-- Weighted selection of `fusion-transcription.ts`
(`combineWeightedAverage`, lines 285-304): selects the transcript with
the highest providerWeight times confidence; a single result is
returned verbatim. -/
def combineWeightedAverage (results : List TranscriptionResult)
    (providerWeights : STT_PROVIDER_ID → Option ℚ) : String :=
  match results with
  | [] => ""
  | [r] => r.transcript
  | r :: rest =>
    let totalWeight := fun (x : TranscriptionResult) =>
      effectiveWeight (providerWeights x.provider) * x.confidence
    (rest.foldl
      (fun best current =>
        if totalWeight best < totalWeight current then current else best)
      r).transcript

/-- Consensus combination of `fusion-transcription.ts`
(`combineConsensus`, lines 309-337): among the results clearing the
confidence threshold, the lower-cased trimmed transcript occurring most
often wins; when none clears the threshold the best-confidence result
is used. -/
def combineConsensus (results : List TranscriptionResult) (threshold : ℚ) : String :=
  match results with
  | [] => ""
  | [r] => r.transcript
  | r :: rest =>
    let highConfidenceResults :=
      (r :: rest).filter (fun x => threshold ≤ x.confidence)
    match highConfidenceResults with
    | [] =>
      (rest.foldl
        (fun best current =>
          if best.confidence < current.confidence then current else best)
        r).transcript
    | h :: hs =>
      let transcripts := (h :: hs).map (fun x => jsTrim (jsToLower x.transcript))
      match countEntries transcripts with
      | [] => ""
      | e :: es => (jsMaxEntry e es).1

/-- Strategy dispatch of `fusion-transcription.ts`
(`applyFusionStrategy`, lines 207-244).  The JavaScript
`results.reduce(...)` on an empty array throws; that is the only error
case, surfaced as `Except.error`. -/
def applyFusionStrategy (results : List TranscriptionResult)
    (strategy : FusionStrategy) (config : FusionConfig) : Except String String :=
  match strategy with
  | .bestConfidence =>
    match results with
    | [] => .error "Reduce of empty array with no initial value"
    | r :: rest =>
      .ok (rest.foldl
        (fun best current =>
          if best.confidence < current.confidence then current else best)
        r).transcript
  | .primaryFallback =>
    let primaryResult :=
      results.find? (fun r => config.primaryProvider = some r.provider)
    match primaryResult with
    | some pr =>
      if config.confidenceThreshold ≤ pr.confidence then .ok pr.transcript
      else
        match results.filter
            (fun r => !(config.primaryProvider = some r.provider : Bool)) with
        | [] => .ok pr.transcript
        | f :: fs =>
          .ok (fs.foldl
            (fun best current =>
              if best.confidence < current.confidence then current else best)
            f).transcript
    | none =>
      match results.filter
          (fun r => !(config.primaryProvider = some r.provider : Bool)) with
      | [] => .ok ""
      | f :: fs =>
        .ok (fs.foldl
          (fun best current =>
            if best.confidence < current.confidence then current else best)
          f).transcript
  | .majorityVote => .ok (combineMajorityVote results)
  | .weightedAverage => .ok (combineWeightedAverage results config.providerWeights)
  | .consensus => .ok (combineConsensus results config.confidenceThreshold)

/-- Overall confidence computation of `fusion-transcription.ts`
(`calculateOverallConfidence`, lines 342-368). -/
def calculateOverallConfidence (results : List TranscriptionResult)
    (strategy : FusionStrategy) : ℚ :=
  match results with
  | [] => 0
  | r :: rest =>
    match strategy with
    | .bestConfidence => rest.foldl (fun m x => max m x.confidence) r.confidence
    | .majorityVote =>
      min (95/100) (((r :: rest).length : ℚ) * (2/10) + 3/10)
    | _ =>
      (((r :: rest).map (fun x => x.confidence)).sum : ℚ) /
        (((r :: rest).length : ℚ))

/-- Main fusion entry point of `fusion-transcription.ts`
(`fusionTranscribe`, lines 15-65).  The parallel and the sequential
dispatch produce the same settled per-provider result list, modelled by
mapping `processProvider` over `config.providers`; the aggregate
insufficient-providers failure is the thrown `Error` of line 34. -/
def fusionTranscribe (outcome : STT_PROVIDER_ID → ProviderOutcome)
    (config : FusionConfig) : Except String FusionResult :=
  let results := config.providers.map (processProvider outcome)
  let successfulResults := results.filter (fun r => r.success)
  if successfulResults.length < config.minProvidersRequired then
    .error ("Fusion failed: Only " ++ toString successfulResults.length ++
      " providers succeeded, but " ++ toString config.minProvidersRequired ++
      " required")
  else
    match applyFusionStrategy successfulResults config.strategy config with
    | .error e => .error e
    | .ok finalTranscript =>
      .ok
        { finalTranscript := finalTranscript
          confidence := calculateOverallConfidence successfulResults config.strategy
          strategy := config.strategy
          results := results
          processingTime := 0
          providersUsed := successfulResults.map (fun r => r.provider) }

/-- The foreground-application record of `app-detection.ts`
(`ActiveAppInfo`). -/
structure ActiveAppInfo where
  name : String
  executable : String
  title : String
  lastUpdated : ℤ
deriving DecidableEq, Repr

/-- The app-specific rule of `shared/types.ts` (`AppRule`), restricted
to the fields `findMatchingRule` reads.  `executable` is the optional
executable pattern. -/
structure AppRule where
  id : String
  appName : String
  executable : Option String
  enabled : Bool
  priority : ℤ
deriving DecidableEq, Repr

/-- Drops characters of `hay` up to and including the first occurrence
of `needle`, returning the remaining suffix, or `none` when `needle`
does not occur. -/
def chopFirst (needle : List Char) : List Char → Option (List Char)
  | [] => if needle.isEmpty then some [] else none
  | c :: t =>
    if needle.isPrefixOf (c :: t) then some ((c :: t).drop needle.length)
    else chopFirst needle t

/-- Matches the literal glob segments in order, each one anywhere after
the previous: the semantics of the unanchored regex
`s0.*s1.*…*sk` produced by `pattern.replace(/\*/g, '.*')`. -/
def matchSegsFrom : List (List Char) → List Char → Bool
  | [], _ => true
  | s :: rest, hay =>
    match chopFirst s hay with
    | some remaining => matchSegsFrom rest remaining
    | none => false

/-- Model of `new RegExp(pattern.replace(/\*/g, '.*'), 'i').test(input)`
of `app-detection.ts` (lines 163-164 and 171-172) for patterns built
from literal characters and the glob star: both sides are lower-cased
(the `'i'` flag) and the star-separated literal segments must occur in
order, unanchored. -/
def globTest (pattern input : String) : Bool :=
  matchSegsFrom ((jsToLower pattern).toList.splitOn '*') (jsToLower input).toList

/-- Match test for a single rule (`findMatchingRule` loop body, lines
158-180): the name pattern is tried first when `rule.appName` is truthy
(non-empty), and the executable pattern is tried only when the name
pattern did not match and `rule.executable` is truthy. -/
def ruleMatches (rule : AppRule) (appInfo : ActiveAppInfo) : Bool :=
  let nameMatches := !(rule.appName == "") && globTest rule.appName appInfo.name
  let execMatches :=
    match rule.executable with
    | some e => !(e == "") && !nameMatches && globTest e appInfo.executable
    | none => false
  nameMatches || execMatches

/-- Stable insertion into a descending-priority list: an element moves
in front of strictly lower priorities only, so earlier list elements
keep their place among equal priorities — the behaviour of the stable
JavaScript `sort((a, b) => b.priority - a.priority)`. -/
def insertByPriorityDesc (r : AppRule) : List AppRule → List AppRule
  | [] => [r]
  | x :: xs =>
    if x.priority ≤ r.priority then r :: x :: xs
    else x :: insertByPriorityDesc r xs

/-- Stable descending-priority sort used by `findMatchingRule`
(line 184). -/
def sortByPriorityDesc : List AppRule → List AppRule
  | [] => []
  | r :: rest => insertByPriorityDesc r (sortByPriorityDesc rest)

/-- Rule resolution of `app-detection.ts` (`findMatchingRule`, lines
152-188): filter to enabled rules, keep those matching the app info,
sort by priority descending (stable) and return the head, or `null`
when nothing matches. -/
def findMatchingRule (appInfo : ActiveAppInfo) (rules : List AppRule) :
    Option AppRule :=
  if rules.length = 0 then none
  else
    let enabledRules := rules.filter (fun r => r.enabled)
    let matchingRules := enabledRules.filter (fun r => ruleMatches r appInfo)
    match sortByPriorityDesc matchingRules with
    | [] => none
    | r :: _ => some r

/-- JavaScript `value || default` on a number: `0` is falsy and falls
back to the default. -/
def jsOr (v d : ℤ) : ℤ :=
  if v = 0 then d else v

/-- The voice-activation configuration of `shared/types.ts`
(`VoiceActivationConfig`). -/
structure VoiceActivationConfig where
  enabled : Bool
  sensitivity : ℚ
  silenceThreshold : ℤ
  noiseGate : ℚ
  minRecordingDuration : ℤ
  maxRecordingDuration : ℤ
deriving DecidableEq, Repr

/-- The `state.voiceActivation` record of `state.ts` (lines 7-13).  A
pending silence timer is modelled by `some d` where `d` is the
scheduled delay; `none` means no timer is pending. -/
structure VoiceActivationState where
  isEnabled : Bool
  isListening : Bool
  audioLevel : ℚ
  silenceTimer : Option ℤ
  recordingStartTime : ℤ
deriving DecidableEq, Repr

/-- The slice of the global mutable `state` of `state.ts` that the
voice activation manager reads and writes: the recording
mutual-exclusion flag and the voice activation record. -/
structure WhispoState where
  isRecording : Bool
  voiceActivation : VoiceActivationState
deriving DecidableEq, Repr

/-- Externally observable commands the voice activation manager sends
to its collaborators (panel window, hidden audio-monitoring window). -/
inductive VAEffect where
  | showPanelAndStartRecording
  | finishRecording
  | stopRecordingAndHidePanel
  | sendStartMonitoring
  | sendStopMonitoring
deriving DecidableEq, Repr

/-- Private helper `VoiceActivationManager.stopRecording`
(`voice-activation.ts` lines 279-289): clears the silence timer and
instructs the panel window to finalize the capture. -/
def VAstopRecording (st : WhispoState) : WhispoState × List VAEffect :=
  ({ st with voiceActivation := { st.voiceActivation with silenceTimer := none } },
   [.finishRecording])

/-- Method `VoiceActivationManager.start` (`voice-activation.ts` lines
294-308): a no-op when the manager is not initialized; otherwise sets
`isListening` and tells the hidden window to start audio monitoring.
No other state field is touched. -/
def VAstart (isInitialized : Bool) (st : WhispoState) : WhispoState × List VAEffect :=
  if isInitialized then
    ({ st with voiceActivation := { st.voiceActivation with isListening := true } },
     [.sendStartMonitoring])
  else (st, [])

/-- Method `VoiceActivationManager.stop` (`voice-activation.ts` lines
313-333): clears `isListening` and any pending silence timer, asks the
panel to stop when a recording is in progress, and tells the hidden
window to stop monitoring.  It never throws. -/
def VAstop (st : WhispoState) : WhispoState × List VAEffect :=
  let st1 :=
    { st with voiceActivation :=
        { st.voiceActivation with isListening := false, silenceTimer := none } }
  (st1,
   (if st1.isRecording then [VAEffect.stopRecordingAndHidePanel] else []) ++
     [VAEffect.sendStopMonitoring])

/-- Handler `VoiceActivationManager.onSilenceDetected`
(`voice-activation.ts` lines 233-254): when enabled and listening,
while recording and with no timer pending, schedules the silence timer
with delay `silenceThreshold || 2000`.  The callback it schedules is
`VAsilenceTimerFire` with the captured `minRecordingDuration || 500`. -/
def VAonSilenceDetected (voiceConfig : Option VoiceActivationConfig)
    (st : WhispoState) : WhispoState :=
  match voiceConfig with
  | none => st
  | some vc =>
    if !vc.enabled || !st.voiceActivation.isListening then st
    else if st.isRecording && st.voiceActivation.silenceTimer == none then
      { st with voiceActivation :=
          { st.voiceActivation with
              silenceTimer := some (jsOr vc.silenceThreshold 2000) } }
    else st

/-- Body of the silence-timer callback scheduled by `onSilenceDetected`
(`voice-activation.ts` lines 244-252): when it fires at wall-clock
`now`, the recording is finalized only if the elapsed recording
duration has reached the captured minimum duration; otherwise nothing
happens. -/
def VAsilenceTimerFire (minDuration : ℤ) (now : ℤ) (st : WhispoState) :
    WhispoState × List VAEffect :=
  if minDuration ≤ now - st.voiceActivation.recordingStartTime then
    VAstopRecording st
  else (st, [])

/-- Handler `VoiceActivationManager.onVoiceDetected`
(`voice-activation.ts` lines 210-228): when enabled and listening,
cancels a pending silence timer and, if no recording is active, stamps
`recordingStartTime` and starts a recording. -/
def VAonVoiceDetected (voiceConfig : Option VoiceActivationConfig)
    (now : ℤ) (st : WhispoState) : WhispoState × List VAEffect :=
  match voiceConfig with
  | none => (st, [])
  | some vc =>
    if !vc.enabled || !st.voiceActivation.isListening then (st, [])
    else
      let st1 :=
        { st with voiceActivation :=
            { st.voiceActivation with silenceTimer := none } }
      if !st1.isRecording then
        ({ st1 with voiceActivation :=
             { st1.voiceActivation with recordingStartTime := now } },
         [.showPanelAndStartRecording])
      else (st1, [])

/-- The streaming dictation runtime state of `shared/types.ts`
(`StreamingDictationState`), the `currentState` field of
`StreamingDictationManager`. -/
structure StreamingDictationState where
  isActive : Bool
  isListening : Bool
  currentText : String
  lastFinalText : String
  confidence : ℚ
  audioLevel : ℚ
  language : String
  startTime : ℤ
  wordsSpoken : Nat
deriving DecidableEq, Repr

/-- Commands the streaming dictation manager sends to its hidden
recognition window. -/
inductive SDEffect where
  | sendStartRecognition
  | sendStopRecognition
  | sendPauseRecognition
  | sendResumeRecognition
deriving DecidableEq, Repr

/-- Method `StreamingDictationManager.start` (`streaming-dictation.ts`
lines 414-430): a no-op when uninitialized; otherwise activates the
session, stamps the start time and resets the word counter. -/
def SDstart (isInitialized : Bool) (now : ℤ) (st : StreamingDictationState) :
    StreamingDictationState × List SDEffect :=
  if isInitialized then
    ({ st with isActive := true, startTime := now, wordsSpoken := 0 },
     [.sendStartRecognition])
  else (st, [])

/-- Method `StreamingDictationManager.stop` (`streaming-dictation.ts`
lines 435-445): clears `isActive` and `isListening` and tells the
recognition window to stop.  No other state field is touched and it
never throws. -/
def SDstop (st : StreamingDictationState) : StreamingDictationState × List SDEffect :=
  ({ st with isActive := false, isListening := false },
   [.sendStopRecognition])

/-- Concrete transcription result used in examples: a successful
`"hello world"` style reading. -/
def mkSuccessResult (p : STT_PROVIDER_ID) (t : String) : TranscriptionResult :=
  { provider := p
    transcript := t
    confidence := 1/2
    processingTime := 1500
    success := true
    error := none }

/-- The three transcripts of the spec example for majority voting. -/
def exMajResults : List TranscriptionResult :=
  [mkSuccessResult .openai "hello world",
   mkSuccessResult .groq "hello word",
   mkSuccessResult .openai "help world"]

/-- Mixed-case transcript used to exhibit the case-destroying behaviour
of multi-result majority voting. -/
def exCaseResult : TranscriptionResult :=
  mkSuccessResult .openai "Hello World"

/-- Settled outcomes for the minimum-providers example: the OpenAI call
succeeds, every Groq call times out. -/
def exC1Outcome : STT_PROVIDER_ID → ProviderOutcome
  | .openai => .ok "hello there" 1500
  | .groq => .failed "Timeout" 5000

/-- Fusion configuration for the minimum-providers example: three
dispatched provider calls, two of which fail, with
`minProvidersRequired = 2`. -/
def exC1Config : FusionConfig :=
  { enabled := true
    strategy := .bestConfidence
    providers := [.openai, .groq, .groq]
    primaryProvider := none
    timeoutMs := 4000
    minProvidersRequired := 2
    confidenceThreshold := 0
    enableParallel := true
    providerWeights := fun _ => none }

/-- Foreground application of the rule-resolution example. -/
def exampleApp : ActiveAppInfo :=
  { name := "Notepad"
    executable := "notepad.exe"
    title := "Untitled - Notepad"
    lastUpdated := 0 }

/-- Enabled rule matching the example application with priority 5. -/
def exampleRule5 : AppRule :=
  { id := "rule-5"
    appName := "note*"
    executable := none
    enabled := true
    priority := 5 }

/-- Enabled rule matching the example application with priority 10. -/
def exampleRule10 : AppRule :=
  { id := "rule-10"
    appName := "*pad"
    executable := some "notepad*"
    enabled := true
    priority := 10 }

/-- A voice-activation state with a pending silence timer and a stale
recording start time, as left behind by an interrupted session. -/
def staleVAState : WhispoState :=
  { isRecording := false
    voiceActivation :=
      { isEnabled := true
        isListening := false
        audioLevel := 0
        silenceTimer := some 2000
        recordingStartTime := 42 } }

/-- A fully inactive voice-activation state: not listening, not
recording, no pending timer. -/
def quietVAState : WhispoState :=
  { isRecording := false
    voiceActivation :=
      { isEnabled := true
        isListening := false
        audioLevel := 0
        silenceTimer := none
        recordingStartTime := 0 } }

/-- A voice-activation state in the middle of a recording, used for the
silence-timer example. -/
def recordingVAState : WhispoState :=
  { isRecording := true
    voiceActivation :=
      { isEnabled := true
        isListening := true
        audioLevel := 40
        silenceTimer := some 2000
        recordingStartTime := 10000 } }

/-- A dictation session state mid-utterance: active, listening, with an
interim text and some accumulated statistics. -/
def busyDictationState : StreamingDictationState :=
  { isActive := true
    isListening := true
    currentText := "hi"
    lastFinalText := "earlier sentence"
    confidence := 0
    audioLevel := 0
    language := "en-US"
    startTime := 1000
    wordsSpoken := 7 }

/-- A fully inactive dictation session state. -/
def quietDictationState : StreamingDictationState :=
  { isActive := false
    isListening := false
    currentText := ""
    lastFinalText := "earlier sentence"
    confidence := 0
    audioLevel := 0
    language := "en-US"
    startTime := 1000
    wordsSpoken := 7 }

/-- First-match lookup in a vote table, the model of
`wordCounts.get(word) || 0`. -/
def entryCount (entries : List (String × Nat)) (w : String) : Nat :=
  match entries with
  | [] => 0
  | (k, n) :: rest => if k = w then n else entryCount rest w

/-!
Theorems.  The helper lemmas about the vote table, the JavaScript
reduce, and the stable sort come first; the claim theorems and their
witnesses follow.
-/

/-- Bumping a vote never empties the table. -/
theorem bumpCount_ne_nil (entries : List (String × Nat)) (w : String) :
    bumpCount entries w ≠ [] := by
  match entries with
  | [] => simp [bumpCount]
  | (k, n) :: rest =>
    by_cases h : k = w <;> simp [bumpCount, h]

/-- Folding votes over a non-empty table keeps it non-empty. -/
theorem foldl_bumpCount_ne_nil (ws : List String) (acc : List (String × Nat))
    (h : acc ≠ []) : ws.foldl bumpCount acc ≠ [] := by
  induction ws generalizing acc with
  | nil => simpa using h
  | cons w ws ih => exact ih _ (bumpCount_ne_nil acc w)

/-- The vote table of a non-empty word list is non-empty. -/
theorem countEntries_ne_nil (w : String) (ws : List String) :
    countEntries (w :: ws) ≠ [] := by
  unfold countEntries
  simp only [List.foldl_cons]
  exact foldl_bumpCount_ne_nil ws _ (bumpCount_ne_nil [] w)

/-- Bumping `w` increments exactly the count of `w`. -/
theorem entryCount_bumpCount (entries : List (String × Nat)) (w v : String) :
    entryCount (bumpCount entries w) v =
      if v = w then entryCount entries v + 1 else entryCount entries v := by
  induction entries with
  | nil =>
    by_cases h : v = w
    · simp [bumpCount, entryCount, h]
    · have h2 : ¬ w = v := fun hh => h hh.symm
      simp [bumpCount, entryCount, h, h2]
  | cons e rest ih =>
    obtain ⟨k, n⟩ := e
    by_cases hk : k = w
    · subst hk
      by_cases hv : v = k
      · subst hv
        simp [bumpCount, entryCount]
      · have hv2 : ¬ k = v := fun hh => hv hh.symm
        simp [bumpCount, entryCount, hv, hv2]
    · by_cases hkv : k = v
      · subst hkv
        have hvw : ¬ k = w := hk
        simp [bumpCount, entryCount, hk, hvw]
      · simp [bumpCount, entryCount, hk, hkv, ih]

/-- Folding a word list over a table adds each word's occurrences. -/
theorem entryCount_foldl (ws : List String) (acc : List (String × Nat))
    (v : String) :
    entryCount (ws.foldl bumpCount acc) v = entryCount acc v + ws.count v := by
  induction ws generalizing acc with
  | nil => simp
  | cons w ws ih =>
    simp only [List.foldl_cons, ih, entryCount_bumpCount, List.count_cons]
    by_cases h : v = w
    · subst h
      simp only [if_pos rfl, beq_self_eq_true, if_true]
      omega
    · have h2 : (w == v) = false := by
        simp only [beq_eq_false_iff_ne, ne_eq]
        exact fun hh => h hh.symm
      simp only [if_neg h, h2, Bool.false_eq_true, if_false]
      omega

/-- The vote table records exactly the occurrence counts. -/
theorem entryCount_countEntries (ws : List String) (v : String) :
    entryCount (countEntries ws) v = ws.count v := by
  unfold countEntries
  simp [entryCount_foldl, entryCount]

/-- A key of a bumped table is an old key or the bumped word. -/
theorem mem_keys_bumpCount {entries : List (String × Nat)} {w v : String}
    (h : v ∈ (bumpCount entries w).map Prod.fst) :
    v ∈ entries.map Prod.fst ∨ v = w := by
  induction entries with
  | nil =>
    right
    simpa [bumpCount] using h
  | cons e rest ih =>
    obtain ⟨k, n⟩ := e
    by_cases hk : k = w
    · left
      simp only [bumpCount, if_pos hk, List.map_cons] at h
      simpa only [List.map_cons] using h
    · simp only [bumpCount, if_neg hk, List.map_cons, List.mem_cons] at h
      rcases h with h | h
      · exact Or.inl (by simp [h])
      · rcases ih h with h2 | h2
        · exact Or.inl (List.mem_cons_of_mem _ h2)
        · exact Or.inr h2

/-- Bumping preserves distinctness of the table keys. -/
theorem nodup_keys_bumpCount {entries : List (String × Nat)}
    (h : (entries.map Prod.fst).Nodup) (w : String) :
    ((bumpCount entries w).map Prod.fst).Nodup := by
  induction entries with
  | nil => simp [bumpCount]
  | cons e rest ih =>
    obtain ⟨k, n⟩ := e
    simp only [List.map_cons, List.nodup_cons] at h
    by_cases hk : k = w
    · subst hk
      simpa [bumpCount, List.nodup_cons] using h
    · simp only [bumpCount, if_neg hk, List.map_cons, List.nodup_cons]
      refine ⟨fun hmem => ?_, ih h.2⟩
      rcases mem_keys_bumpCount hmem with h2 | h2
      · exact h.1 h2
      · exact hk h2

/-- Every vote table built by `countEntries` has distinct keys. -/
theorem nodup_keys_countEntries (ws : List String) :
    ((countEntries ws).map Prod.fst).Nodup := by
  suffices h : ∀ (ws : List String) (acc : List (String × Nat)),
      (acc.map Prod.fst).Nodup → ((ws.foldl bumpCount acc).map Prod.fst).Nodup by
    exact h ws [] (by simp)
  intro ws
  induction ws with
  | nil => intro acc hacc; simpa using hacc
  | cons w ws ih =>
    intro acc hacc
    exact ih _ (nodup_keys_bumpCount hacc w)

/-- In a table with distinct keys every entry carries the first-match
lookup of its own key. -/
theorem snd_eq_entryCount {entries : List (String × Nat)}
    (h : (entries.map Prod.fst).Nodup) :
    ∀ e ∈ entries, e.2 = entryCount entries e.1 := by
  induction entries with
  | nil => simp
  | cons x rest ih =>
    obtain ⟨k, n⟩ := x
    simp only [List.map_cons, List.nodup_cons] at h
    intro e he
    rcases List.mem_cons.mp he with he1 | he1
    · subst he1
      simp [entryCount]
    · have hk : ¬ k = e.1 := by
        intro hcon
        exact h.1 (hcon ▸ (List.mem_map.mpr ⟨e, he1, rfl⟩))
      simp only [entryCount, if_neg hk]
      exact ih h.2 e he1

/-- A word with a positive first-match count is a key of the table. -/
theorem mem_keys_of_entryCount_pos {entries : List (String × Nat)} {v : String}
    (h : 0 < entryCount entries v) : v ∈ entries.map Prod.fst := by
  induction entries with
  | nil => simp [entryCount] at h
  | cons e rest ih =>
    obtain ⟨k, n⟩ := e
    by_cases hk : k = v
    · simp [hk]
    · simp only [entryCount, if_neg hk] at h
      simp [ih h]

/-- Every key of the vote table occurs in the counted word list. -/
theorem mem_of_mem_keys_countEntries {ws : List String} {v : String}
    (h : v ∈ (countEntries ws).map Prod.fst) : v ∈ ws := by
  suffices hgen : ∀ (ws : List String) (acc : List (String × Nat)) (v : String),
      v ∈ ((ws.foldl bumpCount acc).map Prod.fst) →
      v ∈ acc.map Prod.fst ∨ v ∈ ws by
    rcases hgen ws [] v h with h2 | h2
    · simp at h2
    · exact h2
  intro ws
  induction ws with
  | nil =>
    intro acc v hv
    simp only [List.foldl_nil] at hv
    exact Or.inl hv
  | cons w ws ih =>
    intro acc v hv
    rcases ih (bumpCount acc w) v hv with h2 | h2
    · rcases mem_keys_bumpCount h2 with h3 | h3
      · exact Or.inl h3
      · exact Or.inr (by simp [h3])
    · exact Or.inr (by simp [h2])

/-- The JavaScript reduce selects an element of the entry list. -/
theorem jsMaxEntry_mem (e : String × Nat) (rest : List (String × Nat)) :
    jsMaxEntry e rest ∈ e :: rest := by
  induction rest generalizing e with
  | nil => simp [jsMaxEntry]
  | cons c t ih =>
    have hiter : jsMaxEntry e (c :: t) = jsMaxEntry (if e.2 < c.2 then c else e) t := by
      simp [jsMaxEntry]
    rw [hiter]
    have h := ih (if e.2 < c.2 then c else e)
    rcases List.mem_cons.mp h with h2 | h2
    · rw [h2]
      by_cases hc : e.2 < c.2
      · simp [hc]
      · simp [hc]
    · exact List.mem_cons_of_mem _ (List.mem_cons_of_mem _ h2)

/-- The JavaScript reduce selects an entry of maximal count. -/
theorem jsMaxEntry_max (e : String × Nat) (rest : List (String × Nat)) :
    ∀ x ∈ e :: rest, x.2 ≤ (jsMaxEntry e rest).2 := by
  induction rest generalizing e with
  | nil =>
    intro x hx
    simp only [List.mem_singleton] at hx
    simp [hx, jsMaxEntry]
  | cons c t ih =>
    intro x hx
    have step : e.2 ≤ (if e.2 < c.2 then c else e).2 ∧
        c.2 ≤ (if e.2 < c.2 then c else e).2 := by
      by_cases hc : e.2 < c.2 <;> simp [hc] <;> omega
    have hrec := ih (if e.2 < c.2 then c else e)
    have hiter : (jsMaxEntry e (c :: t)).2 = (jsMaxEntry (if e.2 < c.2 then c else e) t).2 := by
      simp [jsMaxEntry]
    rcases List.mem_cons.mp hx with h1 | h1
    · subst h1
      calc x.2 ≤ (if x.2 < c.2 then c else x).2 := step.1
        _ ≤ (jsMaxEntry (if x.2 < c.2 then c else x) t).2 := hrec _ (by simp)
        _ = (jsMaxEntry x (c :: t)).2 := hiter.symm
    · rcases List.mem_cons.mp h1 with h2 | h2
      · subst h2
        calc x.2 ≤ (if e.2 < x.2 then x else e).2 := step.2
          _ ≤ (jsMaxEntry (if e.2 < x.2 then x else e) t).2 := hrec _ (by simp)
          _ = (jsMaxEntry e (x :: t)).2 := hiter.symm
      · calc x.2 ≤ (jsMaxEntry (if e.2 < c.2 then c else e) t).2 :=
            hrec _ (by simp [h2])
          _ = (jsMaxEntry e (c :: t)).2 := hiter.symm

/-- A `filterMap` whose function is total on the list is a `map`. -/
theorem filterMap_eq_map_of_forall_some {α β : Type} {f : α → Option β}
    {g : α → β} {l : List α} (h : ∀ a ∈ l, f a = some (g a)) :
    l.filterMap f = l.map g := by
  induction l with
  | nil => rfl
  | cons x xs ih =>
    rw [List.filterMap_cons, h x (List.mem_cons_self x xs), List.map_cons,
      ih (fun a ha => h a (List.mem_cons_of_mem x ha))]

/-- An index below the running maximum of the token-list lengths is
below the length of some token list. -/
theorem exists_longer_of_lt_foldl_max {ls : List (List String)} {i a : Nat}
    (h : i < ls.foldl (fun m l => max m l.length) a) :
    i < a ∨ ∃ wl ∈ ls, i < wl.length := by
  induction ls generalizing a with
  | nil => exact Or.inl (by simpa using h)
  | cons x xs ih =>
    rw [List.foldl_cons] at h
    rcases ih h with h2 | ⟨wl, hm, hl⟩
    · rcases lt_max_iff.mp h2 with h3 | h3
      · exact Or.inl h3
      · exact Or.inr ⟨x, List.mem_cons_self x xs, h3⟩
    · exact Or.inr ⟨wl, List.mem_cons_of_mem x hm, hl⟩

/-- When some token list is long enough, position `i` receives at least
one vote. -/
theorem wordsAt_ne_nil {L : List (List String)} {i : Nat} {wl : List String}
    (hm : wl ∈ L) (hl : i < wl.length) : wordsAt L i ≠ [] := by
  intro hnil
  unfold wordsAt at hnil
  rw [List.filterMap_eq_nil_iff] at hnil
  have h := hnil wl hm
  rw [List.get?_eq_none] at h
  omega

/-- At a position that receives votes, the loop body emits the winner
selected by the JavaScript reduce, and that winner is one of the voted
words of maximal vote count. -/
theorem majorityWinnerAt_spec {L : List (List String)} {i : Nat}
    (hne : wordsAt L i ≠ []) :
    ∃ w, majorityWinnerAt L i = some w ∧ w ∈ wordsAt L i ∧
      ∀ v ∈ wordsAt L i, (wordsAt L i).count v ≤ (wordsAt L i).count w := by
  obtain ⟨u, us, hus⟩ : ∃ u us, wordsAt L i = u :: us := by
    cases hx : wordsAt L i with
    | nil => exact absurd hx hne
    | cons u us => exact ⟨u, us, rfl⟩
  obtain ⟨e, rest, hentries⟩ : ∃ e rest, countEntries (wordsAt L i) = e :: rest := by
    cases hx : countEntries (wordsAt L i) with
    | nil =>
      rw [hus] at hx
      exact absurd hx (countEntries_ne_nil u us)
    | cons e rest => exact ⟨e, rest, rfl⟩
  have hwinner : majorityWinnerAt L i = some (jsMaxEntry e rest).1 := by
    unfold majorityWinnerAt
    rw [hentries]
  have hmaxmem : jsMaxEntry e rest ∈ countEntries (wordsAt L i) := by
    rw [hentries]
    exact jsMaxEntry_mem e rest
  have hnodup := nodup_keys_countEntries (wordsAt L i)
  have hkeymem : (jsMaxEntry e rest).1 ∈ (countEntries (wordsAt L i)).map Prod.fst :=
    List.mem_map.mpr ⟨jsMaxEntry e rest, hmaxmem, rfl⟩
  have hwmem : (jsMaxEntry e rest).1 ∈ wordsAt L i :=
    mem_of_mem_keys_countEntries hkeymem
  have hwcount : (jsMaxEntry e rest).2 = (wordsAt L i).count (jsMaxEntry e rest).1 := by
    rw [snd_eq_entryCount hnodup _ hmaxmem]
    exact entryCount_countEntries _ _
  refine ⟨(jsMaxEntry e rest).1, hwinner, hwmem, fun v hv => ?_⟩
  have hvkey : v ∈ (countEntries (wordsAt L i)).map Prod.fst := by
    apply mem_keys_of_entryCount_pos
    rw [entryCount_countEntries]
    exact List.count_pos_iff.mpr hv
  obtain ⟨ev, hevmem, hevfst⟩ := List.mem_map.mp hvkey
  have hevcount : ev.2 = (wordsAt L i).count v := by
    rw [snd_eq_entryCount hnodup _ hevmem, hevfst]
    exact entryCount_countEntries _ _
  have hle : ev.2 ≤ (jsMaxEntry e rest).2 := by
    apply jsMaxEntry_max
    rw [← hentries]
    exact hevmem
  rw [← hevcount, ← hwcount]
  exact hle

/-- Claim C2: with two or more results, `combineMajorityVote` tokenizes
every transcript into lower-cased words and, position by position up to
the longest token list, emits a word of maximal vote count among the
providers voting at that position, joining the winners with single
spaces; in particular the transcripts `"hello world"`, `"hello word"`
and `"help world"` fuse to `"hello world"`. -/
theorem combineMajorityVote_positional :
    (∀ results : List TranscriptionResult, 2 ≤ results.length →
      ∃ winners : List String,
        combineMajorityVote results = String.intercalate " " winners ∧
        winners.length =
          (results.map (fun r => tokenizeWords r.transcript)).foldl
            (fun m l => max m l.length) 0 ∧
        ∀ i, i < winners.length →
          ∃ w, winners.get? i = some w ∧
            w ∈ wordsAt (results.map (fun r => tokenizeWords r.transcript)) i ∧
            ∀ v ∈ wordsAt (results.map (fun r => tokenizeWords r.transcript)) i,
              (wordsAt (results.map (fun r => tokenizeWords r.transcript)) i).count v ≤
                (wordsAt (results.map (fun r => tokenizeWords r.transcript)) i).count w) ∧
    combineMajorityVote exMajResults = "hello world" := by
  constructor
  · intro results h2
    match results, h2 with
    | a :: b :: rest, _ =>
      set L := ((a :: b :: rest).map (fun r => tokenizeWords r.transcript)) with hL
      set n := L.foldl (fun m l => max m l.length) 0 with hn
      have hbody : combineMajorityVote (a :: b :: rest) =
          String.intercalate " " ((List.range n).filterMap (majorityWinnerAt L)) := by
        rfl
      have hsome : ∀ i ∈ List.range n,
          majorityWinnerAt L i = some ((majorityWinnerAt L i).getD "") := by
        intro i hi
        rw [List.mem_range] at hi
        rcases exists_longer_of_lt_foldl_max (hn ▸ hi) with h3 | ⟨wl, hm, hl⟩
        · omega
        · obtain ⟨w, hw, _, _⟩ := majorityWinnerAt_spec (wordsAt_ne_nil hm hl)
          rw [hw]
          rfl
      have hmap : (List.range n).filterMap (majorityWinnerAt L) =
          (List.range n).map (fun i => (majorityWinnerAt L i).getD "") :=
        filterMap_eq_map_of_forall_some hsome
      refine ⟨(List.range n).filterMap (majorityWinnerAt L), hbody, ?_, ?_⟩
      · rw [hmap, List.length_map, List.length_range]
      · intro i hi
        rw [hmap, List.length_map, List.length_range] at hi
        have hget : ((List.range n).map
            (fun i => (majorityWinnerAt L i).getD "")).get? i =
            some ((majorityWinnerAt L i).getD "") := by
          rw [List.get?_map, List.get?_range hi]
          rfl
        rcases exists_longer_of_lt_foldl_max (hn ▸ hi) with h3 | ⟨wl, hm, hl⟩
        · omega
        · obtain ⟨w, hw, hwmem, hwmax⟩ := majorityWinnerAt_spec (wordsAt_ne_nil hm hl)
          refine ⟨w, ?_, hwmem, hwmax⟩
          rw [hmap, hget, hw]
          rfl
  · decide

/-- Witness instantiating the positional majority-vote theorem at the
spec example transcripts. -/
theorem combineMajorityVote_positional_witness :
    2 ≤ exMajResults.length ∧
    ∃ winners : List String,
      combineMajorityVote exMajResults = String.intercalate " " winners ∧
      winners.length =
        (exMajResults.map (fun r => tokenizeWords r.transcript)).foldl
          (fun m l => max m l.length) 0 ∧
      ∀ i, i < winners.length →
        ∃ w, winners.get? i = some w ∧
          w ∈ wordsAt (exMajResults.map (fun r => tokenizeWords r.transcript)) i ∧
          ∀ v ∈ wordsAt (exMajResults.map (fun r => tokenizeWords r.transcript)) i,
            (wordsAt (exMajResults.map (fun r => tokenizeWords r.transcript)) i).count v ≤
              (wordsAt (exMajResults.map (fun r => tokenizeWords r.transcript)) i).count w :=
  ⟨by decide, combineMajorityVote_positional.1 exMajResults (by decide)⟩

/-- Folding the length maximum over copies of one list yields that
list's length joined with the seed. -/
theorem foldl_max_replicate (n : Nat) (ws : List String) (a : Nat) :
    (List.replicate (n + 1) ws).foldl (fun m l => max m l.length) a =
      max a ws.length := by
  induction n generalizing a with
  | zero => simp
  | succ k ih =>
    rw [List.replicate_succ, List.foldl_cons, ih]
    rw [max_assoc, max_self]

/-- `filterMap` over copies of one element. -/
theorem filterMap_replicate {α β : Type} (f : α → Option β) (x : α) (n : Nat) :
    (List.replicate n x).filterMap f =
      match f x with
      | some b => List.replicate n b
      | none => [] := by
  induction n with
  | zero => cases f x <;> simp
  | succ k ih =>
    rw [List.replicate_succ, List.filterMap_cons]
    cases hfx : f x <;> simp only [hfx] at ih ⊢ <;> simp [ih, List.replicate_succ]

/-- Counting copies of a single word gives one entry holding the copy
count. -/
theorem foldl_bumpCount_replicate (m k : Nat) (w : String) :
    (List.replicate m w).foldl bumpCount [(w, k)] = [(w, k + m)] := by
  induction m generalizing k with
  | zero => simp
  | succ j ih =>
    rw [List.replicate_succ, List.foldl_cons]
    have hb : bumpCount [(w, k)] w = [(w, k + 1)] := by simp [bumpCount]
    rw [hb, ih]
    have harith : k + 1 + j = k + (j + 1) := by omega
    rw [harith]

/-- The vote table of a replicated word list. -/
theorem countEntries_replicate (w : String) (n : Nat) :
    countEntries (List.replicate (n + 1) w) = [(w, n + 1)] := by
  unfold countEntries
  rw [List.replicate_succ, List.foldl_cons]
  have hb : bumpCount [] w = [(w, 1)] := by simp [bumpCount]
  rw [hb, foldl_bumpCount_replicate]
  have harith : 1 + n = n + 1 := by omega
  rw [harith]

/-- Reading every index of a list back in order reproduces the list. -/
theorem range_map_getD (l : List String) (d : String) :
    (List.range l.length).map (fun i => l.getD i d) = l := by
  induction l with
  | nil => simp
  | cons x xs ih =>
    rw [List.length_cons, List.range_succ_eq_map, List.map_cons, List.map_map]
    have hcomp : ((fun i => (x :: xs).getD i d) ∘ Nat.succ) = fun i => xs.getD i d := by
      funext i
      simp [List.getD]
    rw [show (x :: xs).getD 0 d = x from rfl, hcomp, ih]

/-- Claim C9: `combineMajorityVote` returns a single result's
transcript verbatim but, with two or more results — even identical
ones — produces the lower-cased tokenization rejoined with single
spaces; in particular `"Hello World"` survives alone but two copies
fuse to `"hello world"`. -/
theorem combineMajorityVote_single_vs_multi :
    (∀ r : TranscriptionResult, combineMajorityVote [r] = r.transcript) ∧
    (∀ (t : String) (results : List TranscriptionResult),
      2 ≤ results.length → (∀ r ∈ results, r.transcript = t) →
      combineMajorityVote results = String.intercalate " " (tokenizeWords t)) ∧
    combineMajorityVote [exCaseResult] = "Hello World" ∧
    combineMajorityVote [exCaseResult, exCaseResult] = "hello world" := by
  refine ⟨fun r => rfl, ?_, by decide, by decide⟩
  intro t results h2 hall
  match results, h2 with
  | a :: b :: rest, _ =>
    have hL : (a :: b :: rest).map (fun r => tokenizeWords r.transcript) =
        List.replicate (rest.length + 2) (tokenizeWords t) := by
      rw [List.eq_replicate]
      constructor
      · simp
      · intro x hx
        obtain ⟨r, hr, hxr⟩ := List.mem_map.mp hx
        rw [← hxr, hall r hr]
    have hbody : combineMajorityVote (a :: b :: rest) =
        String.intercalate " "
          ((List.range
            (((a :: b :: rest).map (fun r => tokenizeWords r.transcript)).foldl
              (fun m l => max m l.length) 0)).filterMap
            (majorityWinnerAt
              ((a :: b :: rest).map (fun r => tokenizeWords r.transcript)))) := rfl
    rw [hbody, hL]
    have hmax : (List.replicate (rest.length + 2) (tokenizeWords t)).foldl
        (fun m l => max m l.length) 0 = (tokenizeWords t).length := by
      rw [show rest.length + 2 = (rest.length + 1) + 1 from rfl,
        foldl_max_replicate]
      exact Nat.zero_max _
    rw [hmax]
    have hwin : ∀ i ∈ List.range (tokenizeWords t).length,
        majorityWinnerAt (List.replicate (rest.length + 2) (tokenizeWords t)) i =
          some ((tokenizeWords t).getD i "") := by
      intro i hi
      rw [List.mem_range] at hi
      have hget : (tokenizeWords t).get? i = some ((tokenizeWords t).getD i "") := by
        cases hx : (tokenizeWords t).get? i with
        | none =>
          rw [List.get?_eq_none] at hx
          omega
        | some v =>
          rw [List.getD_eq_get?, hx]
          rfl
      have hwords : wordsAt (List.replicate (rest.length + 2) (tokenizeWords t)) i =
          List.replicate (rest.length + 2) ((tokenizeWords t).getD i "") := by
        unfold wordsAt
        rw [filterMap_replicate, hget]
      unfold majorityWinnerAt
      rw [hwords, show rest.length + 2 = (rest.length + 1) + 1 from rfl,
        countEntries_replicate]
      rfl
    rw [filterMap_eq_map_of_forall_some hwin, range_map_getD]

/-- Witness instantiating the single-versus-multi majority-vote theorem
at two copies of the mixed-case example transcript. -/
theorem combineMajorityVote_single_vs_multi_witness :
    2 ≤ ([exCaseResult, exCaseResult] : List TranscriptionResult).length ∧
    (∀ r ∈ ([exCaseResult, exCaseResult] : List TranscriptionResult),
      r.transcript = "Hello World") ∧
    combineMajorityVote [exCaseResult, exCaseResult] =
      String.intercalate " " (tokenizeWords "Hello World") :=
  ⟨by decide, by decide,
    combineMajorityVote_single_vs_multi.2.1 "Hello World"
      [exCaseResult, exCaseResult] (by decide) (by decide)⟩

/-- Claim C3: for every transcript, provider and processing time, the
estimated confidence lies in the interval `[0.1, 0.99]`. -/
theorem estimateConfidence_clamped (t : String) (p : STT_PROVIDER_ID)
    (time : ℤ) :
    1/10 ≤ estimateConfidence t p time ∧
      estimateConfidence t p time ≤ 99/100 := by
  unfold estimateConfidence
  exact ⟨le_max_left _ _, max_le (by norm_num) (min_le_left _ _)⟩

/-- Claim C1: whenever fewer providers succeed than
`minProvidersRequired`, `fusionTranscribe` surfaces the aggregate
failure as an error and produces no `FusionResult`. -/
theorem fusionTranscribe_insufficient (outcome : STT_PROVIDER_ID → ProviderOutcome)
    (config : FusionConfig)
    (h : ((config.providers.map (processProvider outcome)).filter
        (fun r => r.success)).length < config.minProvidersRequired) :
    ∃ msg, fusionTranscribe outcome config = Except.error msg := by
  refine ⟨"Fusion failed: Only " ++
    toString ((config.providers.map (processProvider outcome)).filter
      (fun r => r.success)).length ++
    " providers succeeded, but " ++ toString config.minProvidersRequired ++
    " required", ?_⟩
  simp only [fusionTranscribe]
  rw [if_pos h]

/-- Witness instantiating the aggregate-failure theorem at a three
provider configuration where two calls fail and two successes are
required. -/
theorem fusionTranscribe_insufficient_witness :
    ((exC1Config.providers.map (processProvider exC1Outcome)).filter
        (fun r => r.success)).length < exC1Config.minProvidersRequired ∧
    ∃ msg, fusionTranscribe exC1Outcome exC1Config = Except.error msg :=
  ⟨by decide, fusionTranscribe_insufficient exC1Outcome exC1Config (by decide)⟩

/-- Inserting grows the sorted rule list by one. -/
theorem length_insertByPriorityDesc (r : AppRule) (l : List AppRule) :
    (insertByPriorityDesc r l).length = l.length + 1 := by
  induction l with
  | nil => rfl
  | cons x xs ih =>
    by_cases h : x.priority ≤ r.priority <;>
      simp [insertByPriorityDesc, h, ih]

/-- Sorting preserves the rule-list length. -/
theorem length_sortByPriorityDesc (l : List AppRule) :
    (sortByPriorityDesc l).length = l.length := by
  induction l with
  | nil => rfl
  | cons x xs ih =>
    simp [sortByPriorityDesc, length_insertByPriorityDesc, ih]

/-- An element of an insertion is the inserted rule or an old one. -/
theorem mem_insertByPriorityDesc {x r : AppRule} {l : List AppRule}
    (h : x ∈ insertByPriorityDesc r l) : x = r ∨ x ∈ l := by
  induction l with
  | nil =>
    left
    simpa [insertByPriorityDesc] using h
  | cons y ys ih =>
    by_cases hy : y.priority ≤ r.priority
    · simp only [insertByPriorityDesc, if_pos hy, List.mem_cons] at h
      rcases h with h | h | h
      · exact Or.inl h
      · exact Or.inr (by simp [h])
      · exact Or.inr (List.mem_cons_of_mem _ h)
    · simp only [insertByPriorityDesc, if_neg hy, List.mem_cons] at h
      rcases h with h | h
      · exact Or.inr (by simp [h])
      · rcases ih h with h2 | h2
        · exact Or.inl h2
        · exact Or.inr (List.mem_cons_of_mem _ h2)

/-- The sorted rule list draws its elements from the input. -/
theorem mem_of_mem_sortByPriorityDesc {x : AppRule} {l : List AppRule}
    (h : x ∈ sortByPriorityDesc l) : x ∈ l := by
  induction l generalizing x with
  | nil => simpa [sortByPriorityDesc] using h
  | cons y ys ih =>
    simp only [sortByPriorityDesc] at h
    rcases mem_insertByPriorityDesc h with h2 | h2
    · simp [h2]
    · exact List.mem_cons_of_mem _ (ih h2)

/-- The head of the sorted rule list dominates every input priority. -/
theorem head_sortByPriorityDesc_max {l : List AppRule} {b : AppRule}
    {s : List AppRule} (hsort : sortByPriorityDesc l = b :: s) :
    ∀ x ∈ l, x.priority ≤ b.priority := by
  induction l generalizing b s with
  | nil => simp [sortByPriorityDesc] at hsort
  | cons a t ih =>
    simp only [sortByPriorityDesc] at hsort
    intro x hx
    cases hst : sortByPriorityDesc t with
    | nil =>
      have ht : t = [] := by
        have hlen := length_sortByPriorityDesc t
        rw [hst] at hlen
        exact List.length_eq_zero.mp hlen.symm
      subst ht
      rw [hst] at hsort
      simp only [insertByPriorityDesc] at hsort
      injection hsort with hba hrest
      rw [List.mem_singleton] at hx
      rw [hx, hba]
    | cons c s2 =>
      rw [hst] at hsort
      by_cases hc : c.priority ≤ a.priority
      · simp only [insertByPriorityDesc, if_pos hc] at hsort
        injection hsort with hba hrest
        rw [← hba]
        rcases List.mem_cons.mp hx with h2 | h2
        · rw [h2]
        · exact le_trans (ih hst x h2) hc
      · simp only [insertByPriorityDesc, if_neg hc] at hsort
        injection hsort with hbc hrest
        rw [← hbc]
        rcases List.mem_cons.mp hx with h2 | h2
        · rw [h2]
          exact le_of_not_le hc
        · exact ih hst x h2

/-- `find?` only depends on predicate values on the list. -/
theorem find?_congr_on {α : Type} {p q : α → Bool} {l : List α}
    (h : ∀ x ∈ l, p x = q x) : l.find? p = l.find? q := by
  induction l with
  | nil => rfl
  | cons x xs ih =>
    rw [List.find?_cons, List.find?_cons, h x (List.mem_cons_self x xs)]
    cases q x with
    | true => rfl
    | false => exact ih (fun y hy => h y (List.mem_cons_of_mem x hy))

/-- The head of the stable descending sort is exactly the first input
rule whose priority dominates the whole list — ties are resolved by
input order. -/
theorem head_sortByPriorityDesc_eq_find (l : List AppRule) :
    (sortByPriorityDesc l).head? =
      l.find? (fun r => l.all (fun x => x.priority ≤ r.priority)) := by
  induction l with
  | nil => rfl
  | cons a t ih =>
    simp only [sortByPriorityDesc]
    cases hst : sortByPriorityDesc t with
    | nil =>
      have ht : t = [] := by
        have hlen := length_sortByPriorityDesc t
        rw [hst] at hlen
        exact List.length_eq_zero.mp hlen.symm
      subst ht
      simp [insertByPriorityDesc]
    | cons b s =>
      rw [hst] at ih
      have hbmax : ∀ x ∈ t, x.priority ≤ b.priority :=
        head_sortByPriorityDesc_max hst
      have hbmem : b ∈ t :=
        mem_of_mem_sortByPriorityDesc (hst ▸ List.mem_cons_self b s)
      by_cases hba : b.priority ≤ a.priority
      · have hall : ((a :: t).all (fun x => x.priority ≤ a.priority)) = true := by
          rw [List.all_eq_true]
          intro x hx
          rcases List.mem_cons.mp hx with h2 | h2
          · simp [h2]
          · simpa using le_trans (hbmax x h2) hba
        rw [List.find?_cons, hall]
        simp only [insertByPriorityDesc, if_pos hba, List.head?_cons]
      · have hnall : ((a :: t).all (fun x => x.priority ≤ a.priority)) = false := by
          rw [List.all_eq_false]
          refine ⟨b, List.mem_cons_of_mem a hbmem, by simpa using hba⟩
        rw [List.find?_cons, hnall]
        simp only [insertByPriorityDesc, if_neg hba, List.head?_cons]
        have hcongr : t.find? (fun r => (a :: t).all (fun x => x.priority ≤ r.priority)) =
            t.find? (fun r => t.all (fun x => x.priority ≤ r.priority)) := by
          apply find?_congr_on
          intro x hx
          cases hq : t.all (fun y => y.priority ≤ x.priority) with
          | true =>
            have hax : a.priority ≤ x.priority := by
              rw [List.all_eq_true] at hq
              have hbx : b.priority ≤ x.priority := by
                simpa using hq b hbmem
              have := lt_of_not_le hba
              exact le_trans (le_of_lt this) hbx
            rw [List.all_cons, hq]
            simp [hax]
          | false =>
            rw [List.all_eq_false] at hq
            obtain ⟨y, hy, hyp⟩ := hq
            rw [List.all_eq_false.mpr ⟨y, List.mem_cons_of_mem a hy, hyp⟩]
        rw [hcongr, ← ih]
        rfl

/-- Filtering to enabled rules and then to matching rules is one filter
on the conjunction. -/
theorem filter_enabled_matches (appInfo : ActiveAppInfo) (rules : List AppRule) :
    (rules.filter (fun r => r.enabled)).filter (fun r => ruleMatches r appInfo) =
      rules.filter (fun r => r.enabled && ruleMatches r appInfo) := by
  induction rules with
  | nil => rfl
  | cons r rs ih =>
    by_cases he : r.enabled
    · by_cases hm : ruleMatches r appInfo
      · simp [List.filter_cons, he, hm, ih]
      · simp [List.filter_cons, he, hm, ih]
    · simp [List.filter_cons, he, ih]

/-- `findMatchingRule` is the head of the stable descending sort of the
enabled matching rules. -/
theorem findMatchingRule_eq_head_sort (appInfo : ActiveAppInfo)
    (rules : List AppRule) :
    findMatchingRule appInfo rules =
      (sortByPriorityDesc (rules.filter
        (fun r => r.enabled && ruleMatches r appInfo))).head? := by
  by_cases hlen : rules.length = 0
  · have hnil : rules = [] := List.length_eq_zero.mp hlen
    subst hnil
    rfl
  · simp only [findMatchingRule, if_neg hlen, filter_enabled_matches]
    cases sortByPriorityDesc (rules.filter
        (fun r => r.enabled && ruleMatches r appInfo)) with
    | nil => rfl
    | cons b s => rfl

/-- Claim C10: on equal highest priorities `findMatchingRule` is
deterministic — it returns the earliest enabled matching rule of
maximal priority in input order, because the descending sort is
stable. -/
theorem findMatchingRule_earliest_max (appInfo : ActiveAppInfo)
    (rules : List AppRule) :
    findMatchingRule appInfo rules =
      (rules.filter (fun r => r.enabled && ruleMatches r appInfo)).find?
        (fun r => (rules.filter (fun r2 => r2.enabled && ruleMatches r2 appInfo)).all
          (fun r2 => r2.priority ≤ r.priority)) := by
  rw [findMatchingRule_eq_head_sort, head_sortByPriorityDesc_eq_find]

/-- Claim C4: `findMatchingRule` considers only enabled rules, matches
by name pattern or — only when the name missed — by executable
pattern, returns a matching rule of maximal priority, and `none` when
no enabled rule matches; in particular, with two enabled matching
rules of priorities 5 and 10 it returns the priority-10 rule. -/
theorem findMatchingRule_priority (appInfo : ActiveAppInfo)
    (rules : List AppRule) :
    (∀ r, findMatchingRule appInfo rules = some r →
      r ∈ rules ∧ r.enabled = true ∧ ruleMatches r appInfo = true ∧
      ∀ r2 ∈ rules, r2.enabled = true → ruleMatches r2 appInfo = true →
        r2.priority ≤ r.priority) ∧
    (findMatchingRule appInfo rules = none →
      ∀ r ∈ rules, r.enabled = true → ruleMatches r appInfo = false) ∧
    findMatchingRule exampleApp [exampleRule5, exampleRule10] =
      some exampleRule10 := by
  refine ⟨?_, ?_, by decide⟩
  · intro r hr
    rw [findMatchingRule_eq_head_sort] at hr
    obtain ⟨s, hsort⟩ : ∃ s, sortByPriorityDesc (rules.filter
        (fun x => x.enabled && ruleMatches x appInfo)) = r :: s := by
      cases hx : sortByPriorityDesc (rules.filter
          (fun x => x.enabled && ruleMatches x appInfo)) with
      | nil =>
        rw [hx] at hr
        exact absurd hr (by simp)
      | cons b s =>
        rw [hx] at hr
        refine ⟨s, ?_⟩
        injection hr with hb
        rw [hb]
    have hmem : r ∈ rules.filter (fun x => x.enabled && ruleMatches x appInfo) :=
      mem_of_mem_sortByPriorityDesc (hsort ▸ List.mem_cons_self r s)
    have hsplit := List.mem_filter.mp hmem
    have hen : r.enabled = true ∧ ruleMatches r appInfo = true := by
      have := hsplit.2
      rwa [Bool.and_eq_true] at this
    refine ⟨hsplit.1, hen.1, hen.2, ?_⟩
    intro r2 hr2 hr2en hr2m
    apply head_sortByPriorityDesc_max hsort
    exact List.mem_filter.mpr ⟨hr2, by rw [Bool.and_eq_true]; exact ⟨hr2en, hr2m⟩⟩
  · intro hr r hrmem hren
    rw [findMatchingRule_eq_head_sort] at hr
    have hsortnil : sortByPriorityDesc (rules.filter
        (fun x => x.enabled && ruleMatches x appInfo)) = [] := by
      cases hx : sortByPriorityDesc (rules.filter
          (fun x => x.enabled && ruleMatches x appInfo)) with
      | nil => rfl
      | cons b s =>
        rw [hx] at hr
        exact absurd hr (by simp)
    have hfilnil : rules.filter (fun x => x.enabled && ruleMatches x appInfo) = [] := by
      have hlen := length_sortByPriorityDesc (rules.filter
        (fun x => x.enabled && ruleMatches x appInfo))
      rw [hsortnil] at hlen
      exact List.length_eq_zero.mp hlen.symm
    by_contra hcon
    have hmt : ruleMatches r appInfo = true := by
      cases hx : ruleMatches r appInfo with
      | true => rfl
      | false => exact absurd hx hcon
    have : r ∈ rules.filter (fun x => x.enabled && ruleMatches x appInfo) :=
      List.mem_filter.mpr ⟨hrmem, by rw [Bool.and_eq_true]; exact ⟨hren, hmt⟩⟩
    rw [hfilnil] at this
    simp at this

/-- Witness instantiating the rule-priority theorem at the two-rule
example with priorities 5 and 10. -/
theorem findMatchingRule_priority_witness :
    findMatchingRule exampleApp [exampleRule5, exampleRule10] =
      some exampleRule10 ∧
    (exampleRule10 ∈ [exampleRule5, exampleRule10] ∧
      exampleRule10.enabled = true ∧
      ruleMatches exampleRule10 exampleApp = true ∧
      ∀ r2 ∈ [exampleRule5, exampleRule10], r2.enabled = true →
        ruleMatches r2 exampleApp = true →
        r2.priority ≤ exampleRule10.priority) :=
  ⟨by decide,
    (findMatchingRule_priority exampleApp [exampleRule5, exampleRule10]).1
      exampleRule10 (by decide)⟩

/-- Claim C5: when the silence timer fires during an active recording,
the capture is finalized only if the elapsed recording duration has
reached `minRecordingDuration`; below the minimum the timer fire is a
complete no-op.  The callback compares against the captured
`minRecordingDuration || 500`. -/
theorem silenceTimerFire_minDuration_guard (vc : VoiceActivationConfig)
    (now : ℤ) (st : WhispoState) (hrec : st.isRecording = true) :
    (VAEffect.finishRecording ∈
        (VAsilenceTimerFire (jsOr vc.minRecordingDuration 500) now st).2 →
      vc.minRecordingDuration ≤ now - st.voiceActivation.recordingStartTime) ∧
    (now - st.voiceActivation.recordingStartTime < vc.minRecordingDuration →
      VAsilenceTimerFire (jsOr vc.minRecordingDuration 500) now st = (st, [])) := by
  unfold VAsilenceTimerFire jsOr
  by_cases h0 : vc.minRecordingDuration = 0
  · rw [if_pos h0, h0]
    by_cases hfire : (500 : ℤ) ≤ now - st.voiceActivation.recordingStartTime
    · rw [if_pos hfire]
      exact ⟨fun _ => by omega, fun hlt => by omega⟩
    · rw [if_neg hfire]
      exact ⟨fun hmem => by simp at hmem, fun _ => rfl⟩
  · rw [if_neg h0]
    by_cases hfire : vc.minRecordingDuration ≤ now - st.voiceActivation.recordingStartTime
    · rw [if_pos hfire]
      exact ⟨fun _ => hfire, fun hlt => by omega⟩
    · rw [if_neg hfire]
      exact ⟨fun hmem => by simp at hmem, fun _ => rfl⟩

/-- Witness instantiating the minimum-duration guard at a concrete
recording state where the timer fires 300 ms into a recording with a
500 ms minimum: nothing is stopped. -/
theorem silenceTimerFire_minDuration_guard_witness :
    recordingVAState.isRecording = true ∧
    (10300 - recordingVAState.voiceActivation.recordingStartTime <
      (500 : ℤ) ∧
      VAsilenceTimerFire (jsOr 500 500) 10300 recordingVAState =
        (recordingVAState, [])) :=
  ⟨rfl,
    by decide,
    (silenceTimerFire_minDuration_guard
      { enabled := true, sensitivity := 30, silenceThreshold := 2000,
        noiseGate := 10, minRecordingDuration := 500,
        maxRecordingDuration := 30000 }
      10300 recordingVAState rfl).2 (by decide)⟩

/-- Counterexample to claim C6: `start()` does not clear a pending
silence timer and does not reset `recordingStartTime` — on a state
with a pending timer and a stale start stamp both survive the call. -/
theorem VAstart_counterexample :
    (VAstart true staleVAState).1.voiceActivation.silenceTimer = some 2000 ∧
    ¬ (VAstart true staleVAState).1.voiceActivation.silenceTimer = none ∧
    (VAstart true staleVAState).1.voiceActivation.recordingStartTime = 42 ∧
    (VAstart true staleVAState).1.voiceActivation.isListening = true := by
  decide

/-- Amended claim C6: an initialized `start()` only sets `isListening`
and sends the start-monitoring command; `silenceTimer` and
`recordingStartTime` are left untouched (they are handled by `stop`,
`onVoiceDetected` and `stopRecording`), and an uninitialized `start()`
is a no-op. -/
theorem VAstart_amended :
    (∀ st : WhispoState, VAstart true st =
      ({ st with voiceActivation :=
          { st.voiceActivation with isListening := true } },
        [VAEffect.sendStartMonitoring])) ∧
    (∀ st : WhispoState, VAstart false st = (st, [])) :=
  ⟨fun st => rfl, fun st => rfl⟩

/-- Counterexample to claim C7: `stop()` does not clear `currentText` —
an interim text set before the call survives it. -/
theorem SDstop_counterexample :
    (SDstop busyDictationState).1.currentText = "hi" ∧
    ¬ (SDstop busyDictationState).1.currentText = "" ∧
    (SDstop busyDictationState).1.isListening = false ∧
    (SDstop busyDictationState).1.isActive = false := by
  decide

/-- Amended claim C7: `stop()` only resets `isActive` and
`isListening`, preserving `currentText`, `lastFinalText` and
`wordsSpoken`; the next initialized `start()` resets `wordsSpoken` (and
the start time) while still preserving `lastFinalText` and
`currentText`. -/
theorem SDstop_amended :
    (∀ st : StreamingDictationState,
      (SDstop st).1 = { st with isActive := false, isListening := false }) ∧
    (∀ (now : ℤ) (st : StreamingDictationState),
      (SDstart true now st).1 =
        { st with isActive := true, startTime := now, wordsSpoken := 0 }) :=
  ⟨fun st => rfl, fun now st => rfl⟩

/-- Claim C8: `stop()` on an already inactive engine changes nothing,
for the voice activation manager and the streaming dictation manager
alike, and composing `stop` with itself reaches the same state as one
`stop`; both functions are total, so no call raises. -/
theorem stop_idempotent :
    (∀ st : WhispoState, st.voiceActivation.isListening = false →
      st.isRecording = false → st.voiceActivation.silenceTimer = none →
      (VAstop st).1 = st) ∧
    (∀ st : WhispoState, (VAstop (VAstop st).1).1 = (VAstop st).1) ∧
    (∀ st : StreamingDictationState, st.isActive = false →
      st.isListening = false → (SDstop st).1 = st) ∧
    (∀ st : StreamingDictationState, (SDstop (SDstop st).1).1 = (SDstop st).1) := by
  refine ⟨?_, ?_, ?_, ?_⟩
  · intro st h1 h2 h3
    obtain ⟨ir, va⟩ := st
    obtain ⟨e, l, a, t, r⟩ := va
    simp only [VAstop] at *
    simp_all
  · intro st
    obtain ⟨ir, va⟩ := st
    obtain ⟨e, l, a, t, r⟩ := va
    rfl
  · intro st h1 h2
    obtain ⟨ia, il, ct, lf, cf, al, lg, ti, wo⟩ := st
    simp only [SDstop] at *
    simp_all
  · intro st
    obtain ⟨ia, il, ct, lf, cf, al, lg, ti, wo⟩ := st
    rfl

/-- Witness instantiating the idempotence theorem at concrete inactive
states of both engines. -/
theorem stop_idempotent_witness :
    ((VAstop quietVAState).1 = quietVAState ∧
      (SDstop quietDictationState).1 = quietDictationState) :=
  ⟨stop_idempotent.1 quietVAState rfl rfl rfl,
    stop_idempotent.2.2.1 quietDictationState rfl rfl⟩
